import Mathlib

/-!
Verification of the FIR filter design and application pipeline of the
DSP project (`src/project.py`).

The repository's core is a filter bank of six windowed-sinc FIR filters
(three band configurations times two window functions) designed by
`design_filters` via `scipy.signal.firwin`, and applied to a signal by
`apply_filters` via `scipy.signal.lfilter` with denominator `1` (pure
FIR convolution).  The scipy routines are not part of the repository's
sources, so they are modelled here from the specification's description
of the windowed-sinc design method and of causal direct-form FIR
filtering.  Real-valued samples and coefficients are modelled by `ℝ`.
-/

open Real Finset

namespace DSP

/-! ### Fixed design constants (src/project.py, lines 15-21) -/

/-- Sampling frequency `fs = 8000`. -/
noncomputable def fs : ℝ := 8000

/-- Filter order `N = 512`. -/
def N : ℕ := 512

/-- Lowpass cutoff frequency `fc_low = 1000` Hz. -/
noncomputable def fc_low : ℝ := 1000

/-- Bandpass cutoff frequencies `fc_band = [1000, 2000]` Hz. -/
noncomputable def fc_band : ℝ × ℝ := (1000, 2000)

/-- Highpass cutoff frequency `fc_high = 2000` Hz. -/
noncomputable def fc_high : ℝ := 2000

/-- Normalized lowpass cutoff `Wn_low = fc_low / (fs / 2)`. -/
noncomputable def Wn_low : ℝ := fc_low / (fs / 2)

/-- Normalized bandpass cutoffs `Wn_band`. -/
noncomputable def Wn_band : ℝ × ℝ := (fc_band.1 / (fs / 2), fc_band.2 / (fs / 2))

/-- Normalized highpass cutoff `Wn_high = fc_high / (fs / 2)`. -/
noncomputable def Wn_high : ℝ := fc_high / (fs / 2)

/-! ### Windowed-sinc FIR design (model of `scipy.signal.firwin`) -/

/-- The two window functions used by the source (`window=` argument of
`firwin`). -/
inductive Window
  | hamming
  | blackman
deriving DecidableEq

/-- The three band configurations used by the source (`pass_zero=`
argument of `firwin`). -/
inductive BandType
  | lowpass
  | bandpass
  | highpass
deriving DecidableEq

/-- Error kind of the design stage: `InvalidSpec` covers every cutoff
validation failure of the design routine. -/
inductive DesignError
  | invalidSpec
deriving DecidableEq

/-- Normalized sinc: `sinc x = sin (π x) / (π x)`, with `sinc 0 = 1`. -/
noncomputable def sinc (x : ℝ) : ℝ :=
  if x = 0 then 1 else Real.sin (π * x) / (π * x)

/-- Modelled from the spec: value at point `n` of the window of length
`M` (§4.1 step 3) — Hamming `0.54 - 0.46 cos (2πn/(M-1))`, Blackman
`0.42 - 0.5 cos (2πn/(M-1)) + 0.08 cos (4πn/(M-1))`. -/
noncomputable def winVal : Window → ℕ → ℕ → ℝ
  | .hamming, M, n => 0.54 - 0.46 * Real.cos (2 * π * n / ((M : ℝ) - 1))
  | .blackman, M, n =>
      0.42 - 0.5 * Real.cos (2 * π * n / ((M : ℝ) - 1))
        + 0.08 * Real.cos (4 * π * n / ((M : ℝ) - 1))

/-- Index `n` shifted to the center of a length-`M` filter:
`n - (M-1)/2` (delay of `order/2` samples; §4.1 step 2). -/
noncomputable def centerOffset (M : ℕ) (n : ℕ) : ℝ :=
  (n : ℝ) - ((M : ℝ) - 1) / 2

/-- Modelled from the spec: sample `n` of the ideal impulse response,
truncated and centered over `M` samples (§4.1 step 2) — lowpass: sinc
at the cutoff; bandpass: difference of two lowpass responses; highpass:
identity impulse minus the lowpass response (spectral inversion). -/
noncomputable def idealResp : BandType → List ℝ → ℕ → ℕ → ℝ
  | .lowpass, cutoff, M, n =>
      let f := cutoff.getD 0 0
      f * sinc (f * centerOffset M n)
  | .bandpass, cutoff, M, n =>
      let f1 := cutoff.getD 0 0
      let f2 := cutoff.getD 1 0
      f2 * sinc (f2 * centerOffset M n) - f1 * sinc (f1 * centerOffset M n)
  | .highpass, cutoff, M, n =>
      let f := cutoff.getD 0 0
      (if centerOffset M n = 0 then 1 else 0) - f * sinc (f * centerOffset M n)

/-- Unscaled tap `n`: ideal impulse response multiplied pointwise by the
window (§4.1 step 3). -/
noncomputable def firwinRaw (M : ℕ) (bt : BandType) (cutoff : List ℝ) (w : Window)
    (n : ℕ) : ℝ :=
  idealResp bt cutoff M n * winVal w M n

/-- Modelled from the spec: passband reference frequency of the gain
normalization (§4.1 step 4) — `0` for lowpass, band center for
bandpass, Nyquist (normalized `1`) for highpass. -/
noncomputable def scaleRef : BandType → List ℝ → ℝ
  | .lowpass, _ => 0
  | .bandpass, cutoff => (cutoff.getD 0 0 + cutoff.getD 1 0) / 2
  | .highpass, _ => 1

/-- Frequency response of the unscaled taps at the reference frequency:
the gain the normalization divides by (§4.1 step 4). -/
noncomputable def scaleSum (M : ℕ) (bt : BandType) (cutoff : List ℝ) (w : Window) : ℝ :=
  ∑ n ∈ Finset.range M,
    firwinRaw M bt cutoff w n * Real.cos (π * centerOffset M n * scaleRef bt cutoff)

/-- The coefficient list of a valid windowed-sinc design: unscaled taps
divided by the reference-frequency gain (unity passband gain). -/
noncomputable def firwinCoeffs (M : ℕ) (bt : BandType) (cutoff : List ℝ)
    (w : Window) : List ℝ :=
  (List.range M).map fun n => firwinRaw M bt cutoff w n / scaleSum M bt cutoff w

/-- Modelled from the spec: a cutoff sequence is valid when it is
non-empty, each entry is strictly inside `(0, 1)` after Nyquist
normalization, and entries are strictly increasing (§4.1, §7
`InvalidSpec`). -/
def validCutoffs (cutoff : List ℝ) : Prop :=
  cutoff ≠ [] ∧ (∀ c ∈ cutoff, 0 < c ∧ c < 1) ∧ cutoff.Chain' (· < ·)

noncomputable instance : DecidablePred validCutoffs := fun cutoff =>
  inferInstanceAs (Decidable
    (cutoff ≠ [] ∧ (∀ c ∈ cutoff, 0 < c ∧ c < 1) ∧ cutoff.Chain' (· < ·)))

/-- Modelled from the spec: `firwin numtaps cutoff window pass_zero`
returns the windowed-sinc coefficients for a valid cutoff sequence and
fails with `InvalidSpec` otherwise. -/
noncomputable def firwin (numtaps : ℕ) (cutoff : List ℝ) (w : Window)
    (bt : BandType) : Except DesignError (List ℝ) :=
  if validCutoffs cutoff then .ok (firwinCoeffs numtaps bt cutoff w)
  else .error .invalidSpec

/-! ### The filter bank (src/project.py, `design_filters`, lines 23-32) -/

/-- `design_filters` generalized over the three cutoff parameters: the
six `firwin` calls of the source in their dictionary order, each cutoff
normalized by the Nyquist frequency `fs / 2`; any validation failure
aborts the whole design with no partial bank. -/
noncomputable def designFiltersGen (fcl : ℝ) (fcb : ℝ × ℝ) (fch : ℝ) :
    Except DesignError (List (String × List ℝ)) := do
  let wl := fcl / (fs / 2)
  let wb1 := fcb.1 / (fs / 2)
  let wb2 := fcb.2 / (fs / 2)
  let wh := fch / (fs / 2)
  let lh ← firwin (N + 1) [wl] .hamming .lowpass
  let bh ← firwin (N + 1) [wb1, wb2] .hamming .bandpass
  let hh ← firwin (N + 1) [wh] .hamming .highpass
  let lb ← firwin (N + 1) [wl] .blackman .lowpass
  let bb ← firwin (N + 1) [wb1, wb2] .blackman .bandpass
  let hb ← firwin (N + 1) [wh] .blackman .highpass
  return [("Low_Hamming", lh), ("Band_Hamming", bh), ("High_Hamming", hh),
          ("Low_Blackman", lb), ("Band_Blackman", bb), ("High_Blackman", hb)]

/-- `design_filters` of the source: the generalized design at the fixed
constants. -/
noncomputable def design_filters : Except DesignError (List (String × List ℝ)) :=
  designFiltersGen fc_low fc_band fc_high

/-- Coefficients of the `Low_Hamming` filter. -/
noncomputable def lowHamming : List ℝ := firwinCoeffs (N + 1) .lowpass [Wn_low] .hamming

/-- Coefficients of the `Band_Hamming` filter. -/
noncomputable def bandHamming : List ℝ :=
  firwinCoeffs (N + 1) .bandpass [Wn_band.1, Wn_band.2] .hamming

/-- Coefficients of the `High_Hamming` filter. -/
noncomputable def highHamming : List ℝ := firwinCoeffs (N + 1) .highpass [Wn_high] .hamming

/-- Coefficients of the `Low_Blackman` filter. -/
noncomputable def lowBlackman : List ℝ := firwinCoeffs (N + 1) .lowpass [Wn_low] .blackman

/-- Coefficients of the `Band_Blackman` filter. -/
noncomputable def bandBlackman : List ℝ :=
  firwinCoeffs (N + 1) .bandpass [Wn_band.1, Wn_band.2] .blackman

/-- Coefficients of the `High_Blackman` filter. -/
noncomputable def highBlackman : List ℝ := firwinCoeffs (N + 1) .highpass [Wn_high] .blackman

/-- The six-entry filter bank that `design_filters` returns, in the
source's dictionary insertion order. -/
noncomputable def designBank : List (String × List ℝ) :=
  [("Low_Hamming", lowHamming), ("Band_Hamming", bandHamming),
   ("High_Hamming", highHamming), ("Low_Blackman", lowBlackman),
   ("Band_Blackman", bandBlackman), ("High_Blackman", highBlackman)]

/-! ### Filtering (src/project.py, `apply_filters`, lines 43-46) -/

/-- Modelled from the spec: `scipy.signal.lfilter(b, 1, x)` — causal
direct-form FIR convolution, `y[i] = Σ_{k=0..min(i, M-1)} b[k]·x[i-k]`
with zero-padding for `x[j]`, `j < 0`, output of the input's length
(§4.2). -/
noncomputable def lfilter (b : List ℝ) (x : List ℝ) : List ℝ :=
  (List.range x.length).map fun i =>
    ∑ k ∈ Finset.range (min (i + 1) b.length), b.getD k 0 * x.getD (i - k) 0

/-- The mapping `apply_filters` builds from a successfully designed
bank: each filter name paired with the `lfilter` output on `x`. -/
noncomputable def applyBank (x : List ℝ) : List (String × List ℝ) :=
  designBank.map fun p => (p.1, lfilter p.2 x)

/-- `apply_filters` of the source: design the bank, then apply every
filter to the signal `x` by `lfilter` with denominator `1`. -/
noncomputable def apply_filters (x : List ℝ) :
    Except DesignError (List (String × List ℝ)) :=
  design_filters.map fun filters => filters.map fun p => (p.1, lfilter p.2 x)

/-! ### GUI-facing state and playback lookup (src/project.py, lines
96-171) -/

/-- The module-level mutable state the GUI callbacks share: `x`, `y`
and `t` are set together by `apply_and_plot` (lines 100-102) and are
absent before the first load. -/
structure GlobalEnv where
  loaded : Option (List ℝ × List (String × List ℝ) × List ℝ)

/-- A run of `apply_filters` threaded through the global state: the
function body (line 43-46) reads no global and assigns no global, so
the state passes through unchanged. -/
noncomputable def apply_filtersRun (x : List ℝ) (env : GlobalEnv) :
    Except DesignError (List (String × List ℝ)) × GlobalEnv :=
  (apply_filters x, env)

/-- Observable outcome of the `play_selected` callback: either a status
message is set, or an audio buffer is handed to the playback device
with its label. -/
inductive PlayOutcome
  | statusMsg (msg : String)
  | played (audio : List ℝ) (label : String)

/-- `play_selected` of the source (lines 159-171): report when nothing
is loaded; play the original signal for `"Original Signal"`; play the
named filtered signal when the name is a key of `y`; otherwise set the
status to `"Invalid selection."` and play nothing. -/
noncomputable def play_selected (env : GlobalEnv) (selected : String) : PlayOutcome :=
  match env.loaded with
  | none => .statusMsg "Please load an audio file first bro."
  | some (x, y, _) =>
    if selected = "Original Signal" then .played x "Original Signal"
    else
      match y.lookup selected with
      | some sig => .played sig selected
      | none => .statusMsg "Invalid selection."

/-! ### Supporting lemmas -/

lemma getD_map_range (f : ℕ → ℝ) {M i : ℕ} (h : i < M) :
    ((List.range M).map f).getD i 0 = f i := by
  rw [List.getD_eq_getElem _ _ (by simpa using h)]
  simp

lemma firwinCoeffs_length (M : ℕ) (bt : BandType) (cutoff : List ℝ) (w : Window) :
    (firwinCoeffs M bt cutoff w).length = M := by
  simp [firwinCoeffs]

lemma firwinCoeffs_getD {M i : ℕ} (h : i < M) (bt : BandType) (cutoff : List ℝ)
    (w : Window) :
    (firwinCoeffs M bt cutoff w).getD i 0 =
      firwinRaw M bt cutoff w i / scaleSum M bt cutoff w :=
  getD_map_range _ h

lemma firwin_ok {cutoff : List ℝ} (h : validCutoffs cutoff) (numtaps : ℕ)
    (w : Window) (bt : BandType) :
    firwin numtaps cutoff w bt = .ok (firwinCoeffs numtaps bt cutoff w) := by
  rw [firwin, if_pos h]

lemma firwin_err {cutoff : List ℝ} (h : ¬ validCutoffs cutoff) (numtaps : ℕ)
    (w : Window) (bt : BandType) :
    firwin numtaps cutoff w bt = .error .invalidSpec := by
  rw [firwin, if_neg h]

lemma validCutoffs_low : validCutoffs [fc_low / (fs / 2)] := by
  refine ⟨by simp, ?_, by simp⟩
  intro c hc
  simp only [List.mem_singleton] at hc
  subst hc
  norm_num [fc_low, fs]

lemma validCutoffs_band : validCutoffs [fc_band.1 / (fs / 2), fc_band.2 / (fs / 2)] := by
  refine ⟨by simp, ?_, ?_⟩
  · intro c hc
    simp only [List.mem_cons, List.mem_singleton, List.not_mem_nil, or_false] at hc
    rcases hc with rfl | rfl <;> norm_num [fc_band, fs]
  · simp only [List.chain'_cons, List.chain'_singleton, and_true]
    norm_num [fc_band, fs]

lemma validCutoffs_high : validCutoffs [fc_high / (fs / 2)] := by
  refine ⟨by simp, ?_, by simp⟩
  intro c hc
  simp only [List.mem_singleton] at hc
  subst hc
  norm_num [fc_high, fs]

lemma design_filters_ok : design_filters = .ok designBank := by
  simp only [design_filters, designFiltersGen,
    firwin_ok validCutoffs_low, firwin_ok validCutoffs_band,
    firwin_ok validCutoffs_high]
  rfl

lemma apply_filters_eq (x : List ℝ) : apply_filters x = .ok (applyBank x) := by
  rw [apply_filters, design_filters_ok]
  rfl

lemma lfilter_length (b x : List ℝ) : (lfilter b x).length = x.length := by
  simp [lfilter]

lemma lfilter_nil (b : List ℝ) : lfilter b [] = [] := by
  simp [lfilter]

lemma lfilter_getD (b x : List ℝ) {i : ℕ} (h : i < x.length) :
    (lfilter b x).getD i 0 =
      ∑ k ∈ Finset.range (min (i + 1) b.length), b.getD k 0 * x.getD (i - k) 0 :=
  getD_map_range _ h

lemma lookup_eq_none_of_not_mem {l : List (String × List ℝ)} {a : String}
    (h : a ∉ l.map Prod.fst) : l.lookup a = none := by
  induction l with
  | nil => rfl
  | cons p l ih =>
    simp only [List.map_cons, List.mem_cons] at h
    push_neg at h
    rw [List.lookup]
    have hbeq : (a == p.1) = false := by simp [h.1]
    rw [hbeq]
    exact ih h.2

lemma designBank_snd_length {p : String × List ℝ} (hp : p ∈ designBank) :
    p.2.length = 513 := by
  simp only [designBank, List.mem_cons, List.not_mem_nil, or_false] at hp
  rcases hp with rfl | rfl | rfl | rfl | rfl | rfl <;>
    simp [lowHamming, bandHamming, highHamming, lowBlackman, bandBlackman,
      highBlackman, firwinCoeffs_length, N]

lemma valid_single_iff (c : ℝ) : validCutoffs [c] ↔ 0 < c ∧ c < 1 := by
  simp [validCutoffs]

lemma valid_pair_first {c d : ℝ} (h : validCutoffs [c, d]) :
    (0 < c ∧ c < 1) ∧ (0 < d ∧ d < 1) ∧ c < d := by
  obtain ⟨-, hmem, hchain⟩ := h
  refine ⟨hmem c (by simp), hmem d (by simp), ?_⟩
  simpa using hchain

/-! ### Symmetry of the windowed-sinc taps -/

lemma sinc_neg (x : ℝ) : sinc (-x) = sinc x := by
  unfold sinc
  rcases eq_or_ne x 0 with rfl | hx
  · simp
  · rw [if_neg (neg_ne_zero.mpr hx), if_neg hx, mul_neg, Real.sin_neg, neg_div_neg_eq]

lemma cos_two_pi_sub (y : ℝ) : Real.cos (2 * π - y) = Real.cos y := by
  rw [Real.cos_sub, Real.cos_two_pi, Real.sin_two_pi]
  ring

lemma cos_four_pi_sub (y : ℝ) : Real.cos (4 * π - y) = Real.cos y := by
  rw [show 4 * π - y = 2 * π + (2 * π - y) by ring, Real.cos_add,
    Real.cos_two_pi, Real.sin_two_pi, cos_two_pi_sub]
  ring

lemma cast_sub_512 {n : ℕ} (h : n ≤ 512) : ((512 - n : ℕ) : ℝ) = 512 - (n : ℝ) := by
  push_cast [h]
  ring

lemma ham_arg_reflect {n : ℕ} (h : n ≤ 512) :
    Real.cos (2 * π * ((512 - n : ℕ) : ℝ) / (((513 : ℕ) : ℝ) - 1)) =
      Real.cos (2 * π * (n : ℝ) / (((513 : ℕ) : ℝ) - 1)) := by
  rw [cast_sub_512 h, show ((513 : ℕ) : ℝ) - 1 = 512 by norm_num,
    show 2 * π * (512 - (n : ℝ)) / 512 = 2 * π - 2 * π * (n : ℝ) / 512 by ring,
    cos_two_pi_sub]

lemma bl_arg_reflect {n : ℕ} (h : n ≤ 512) :
    Real.cos (4 * π * ((512 - n : ℕ) : ℝ) / (((513 : ℕ) : ℝ) - 1)) =
      Real.cos (4 * π * (n : ℝ) / (((513 : ℕ) : ℝ) - 1)) := by
  rw [cast_sub_512 h, show ((513 : ℕ) : ℝ) - 1 = 512 by norm_num,
    show 4 * π * (512 - (n : ℝ)) / 512 = 4 * π - 4 * π * (n : ℝ) / 512 by ring,
    cos_four_pi_sub]

lemma winVal_513_reflect (w : Window) {n : ℕ} (h : n ≤ 512) :
    winVal w 513 (512 - n) = winVal w 513 n := by
  cases w
  · simp only [winVal]
    rw [ham_arg_reflect h]
  · simp only [winVal]
    rw [ham_arg_reflect h, bl_arg_reflect h]

lemma centerOffset_513 (n : ℕ) : centerOffset 513 n = (n : ℝ) - 256 := by
  rw [centerOffset]
  norm_num

lemma centerOffset_513_reflect {n : ℕ} (h : n ≤ 512) :
    centerOffset 513 (512 - n) = -centerOffset 513 n := by
  rw [centerOffset_513, centerOffset_513, cast_sub_512 h]
  ring

lemma idealResp_513_reflect (bt : BandType) (cutoff : List ℝ) {n : ℕ}
    (h : n ≤ 512) :
    idealResp bt cutoff 513 (512 - n) = idealResp bt cutoff 513 n := by
  cases bt
  · simp only [idealResp]
    rw [centerOffset_513_reflect h, mul_neg, sinc_neg]
  · simp only [idealResp]
    rw [centerOffset_513_reflect h, mul_neg, mul_neg, sinc_neg, sinc_neg]
  · simp only [idealResp]
    rw [centerOffset_513_reflect h]
    simp only [neg_eq_zero]
    rw [mul_neg, sinc_neg]

lemma firwinRaw_513_reflect (bt : BandType) (cutoff : List ℝ) (w : Window)
    {n : ℕ} (h : n ≤ 512) :
    firwinRaw 513 bt cutoff w (512 - n) = firwinRaw 513 bt cutoff w n := by
  rw [firwinRaw, firwinRaw, idealResp_513_reflect _ _ h, winVal_513_reflect _ h]

/-! ### DC gain of the Hamming lowpass filter

The gain normalization of the lowpass design divides by the DC response
`scaleSum` of the unscaled taps; the scaled taps then sum to `1`
provided that response is nonzero.  The development below shows the DC
response of the `Low_Hamming` design is at least `1/4`: the taps pair
up symmetrically around the center into terms `(2/π)·a m·sin(πm/4)/m`
with `a` the (positive, decreasing) reflected Hamming profile, the
partial sums of `Σ sin(πm/4)/m` are nonnegative, and Abel summation
transfers that nonnegativity through the decreasing weights. -/

/-- The unscaled `Low_Hamming` tap sequence as a function of the index. -/
noncomputable def lhRaw (n : ℕ) : ℝ :=
  firwinRaw 513 BandType.lowpass [Wn_low] Window.hamming n

/-- The DC response the `Low_Hamming` design divides by. -/
noncomputable def lhScale : ℝ :=
  scaleSum 513 BandType.lowpass [Wn_low] Window.hamming

/-- Reflected Hamming window profile: value of the window at distance
`m` from the center index. -/
noncomputable def aCoef (m : ℕ) : ℝ := 0.54 + 0.46 * Real.cos (π * m / 256)

/-- Exact value of `sin (π m / 4)`, by the residue of `m` mod 8. -/
noncomputable def sigma8 (m : ℕ) : ℝ :=
  match m % 8 with
  | 1 => Real.sqrt 2 / 2
  | 2 => 1
  | 3 => Real.sqrt 2 / 2
  | 5 => -(Real.sqrt 2 / 2)
  | 6 => -1
  | 7 => -(Real.sqrt 2 / 2)
  | _ => 0

/-- Term `m` of the Dirichlet-type series `Σ sin(πm/4)/m`. -/
noncomputable def dTerm (m : ℕ) : ℝ := sigma8 m / m

/-- Partial sum `Σ_{m=1..n} sin(πm/4)/m`. -/
noncomputable def B (n : ℕ) : ℝ := ∑ i ∈ Finset.range n, dTerm (i + 1)

/-- Weighted partial sum `Σ_{m=1..n} a m · sin(πm/4)/m`. -/
noncomputable def T (n : ℕ) : ℝ := ∑ i ∈ Finset.range n, aCoef (i + 1) * dTerm (i + 1)

lemma sigma8_mod (k r : ℕ) : sigma8 (8 * k + r) = sigma8 r := by
  unfold sigma8
  rw [Nat.mul_add_mod]

lemma sin_pi_add (x : ℝ) : Real.sin (π + x) = -Real.sin x := by
  rw [Real.sin_add]
  simp

lemma cos_pi_add (x : ℝ) : Real.cos (π + x) = -Real.cos x := by
  rw [Real.cos_add]
  simp

lemma sin_eq_sigma8 (m : ℕ) : Real.sin (π * m / 4) = sigma8 m := by
  obtain ⟨q, r, hr, rfl⟩ : ∃ q r, r < 8 ∧ m = 8 * q + r :=
    ⟨m / 8, m % 8, Nat.mod_lt _ (by norm_num), ((Nat.div_add_mod m 8).symm)⟩
  rw [sigma8_mod]
  have harg : π * ((8 * q + r : ℕ) : ℝ) / 4 = π * r / 4 + (q : ℕ) * (2 * π) := by
    push_cast
    ring
  rw [harg, Real.sin_add_nat_mul_two_pi]
  interval_cases r
  · simp [sigma8]
  · rw [show π * (1 : ℕ) / 4 = π / 4 by push_cast; ring, Real.sin_pi_div_four]
    rfl
  · rw [show π * (2 : ℕ) / 4 = π / 2 by push_cast; ring, Real.sin_pi_div_two]
    rfl
  · rw [show π * (3 : ℕ) / 4 = π - π / 4 by push_cast; ring, Real.sin_pi_sub,
      Real.sin_pi_div_four]
    rfl
  · rw [show π * (4 : ℕ) / 4 = π by push_cast; ring, Real.sin_pi]
    rfl
  · rw [show π * (5 : ℕ) / 4 = π + π / 4 by push_cast; ring, sin_pi_add,
      Real.sin_pi_div_four]
    rfl
  · rw [show π * (6 : ℕ) / 4 = π + π / 2 by push_cast; ring, sin_pi_add,
      Real.sin_pi_div_two]
    rfl
  · rw [show π * (7 : ℕ) / 4 = 2 * π - π / 4 by push_cast; ring, Real.sin_sub,
      Real.sin_two_pi, Real.cos_two_pi, Real.sin_pi_div_four]
    norm_num [sigma8]

lemma sinc_nat_quarter {m : ℕ} (hm : 1 ≤ m) :
    sinc ((m : ℝ) / 4) = 4 / (π * m) * sigma8 m := by
  have hm0 : ((m : ℝ)) ≠ 0 := Nat.cast_ne_zero.mpr (by omega)
  have hx : ((m : ℝ) / 4) ≠ 0 := by
    simp [hm0]
  rw [sinc, if_neg hx, show π * ((m : ℝ) / 4) = π * m / 4 by ring, sin_eq_sigma8]
  field_simp
  ring

lemma B_succ (n : ℕ) : B (n + 1) = B n + dTerm (n + 1) :=
  Finset.sum_range_succ _ n

lemma B_add (t j : ℕ) :
    B (t + j) = B t + ∑ i ∈ Finset.range j, dTerm (t + i + 1) := by
  rw [B, B, Finset.sum_range_add]

lemma dTerm_8k (k j : ℕ) : dTerm (8 * k + j) = sigma8 j / ((8 * k + j : ℕ) : ℝ) := by
  rw [dTerm, sigma8_mod]

lemma blockPart_nonneg (k : ℕ) {j : ℕ} (hj : j ≤ 8) :
    0 ≤ ∑ i ∈ Finset.range j, dTerm (8 * k + i + 1) := by
  have tv : ∀ i : ℕ, dTerm (8 * k + i + 1) = sigma8 (i + 1) / ((8 * k + (i + 1) : ℕ) : ℝ) :=
    fun i => by rw [show 8 * k + i + 1 = 8 * k + (i + 1) by ring, dTerm_8k]
  have s1 : sigma8 1 = Real.sqrt 2 / 2 := by norm_num [sigma8]
  have s2 : sigma8 2 = 1 := by norm_num [sigma8]
  have s3 : sigma8 3 = Real.sqrt 2 / 2 := by norm_num [sigma8]
  have s4 : sigma8 4 = 0 := by norm_num [sigma8]
  have s5 : sigma8 5 = -(Real.sqrt 2 / 2) := by norm_num [sigma8]
  have s6 : sigma8 6 = -1 := by norm_num [sigma8]
  have s7 : sigma8 7 = -(Real.sqrt 2 / 2) := by norm_num [sigma8]
  have s8 : sigma8 8 = 0 := by norm_num [sigma8]
  have c_nonneg : (0 : ℝ) ≤ Real.sqrt 2 / 2 := by positivity
  have hd : ∀ m : ℕ, 0 < m → (0 : ℝ) < ((8 * k + m : ℕ) : ℝ) := by
    intro m hm
    exact_mod_cast Nat.lt_of_lt_of_le hm (by omega)
  have h1 := hd 1 (by norm_num)
  have h2 := hd 2 (by norm_num)
  have h3 := hd 3 (by norm_num)
  have h5 := hd 5 (by norm_num)
  have h6 := hd 6 (by norm_num)
  have h7 := hd 7 (by norm_num)
  have m15 : ((8 * k + 1 : ℕ) : ℝ) ≤ ((8 * k + 5 : ℕ) : ℝ) := by
    exact_mod_cast (by omega : 8 * k + 1 ≤ 8 * k + 5)
  have m26 : ((8 * k + 2 : ℕ) : ℝ) ≤ ((8 * k + 6 : ℕ) : ℝ) := by
    exact_mod_cast (by omega : 8 * k + 2 ≤ 8 * k + 6)
  have m37 : ((8 * k + 3 : ℕ) : ℝ) ≤ ((8 * k + 7 : ℕ) : ℝ) := by
    exact_mod_cast (by omega : 8 * k + 3 ≤ 8 * k + 7)
  have p15 : Real.sqrt 2 / 2 / ((8 * k + 5 : ℕ) : ℝ) ≤
      Real.sqrt 2 / 2 / ((8 * k + 1 : ℕ) : ℝ) :=
    div_le_div_of_nonneg_left c_nonneg h1 m15
  have p26 : (1 : ℝ) / ((8 * k + 6 : ℕ) : ℝ) ≤ 1 / ((8 * k + 2 : ℕ) : ℝ) :=
    div_le_div_of_nonneg_left (by norm_num) h2 m26
  have p37 : Real.sqrt 2 / 2 / ((8 * k + 7 : ℕ) : ℝ) ≤
      Real.sqrt 2 / 2 / ((8 * k + 3 : ℕ) : ℝ) :=
    div_le_div_of_nonneg_left c_nonneg h3 m37
  have t1 : (0 : ℝ) ≤ Real.sqrt 2 / 2 / ((8 * k + 1 : ℕ) : ℝ) := by positivity
  have t2 : (0 : ℝ) ≤ (1 : ℝ) / ((8 * k + 2 : ℕ) : ℝ) := by positivity
  have t3 : (0 : ℝ) ≤ Real.sqrt 2 / 2 / ((8 * k + 3 : ℕ) : ℝ) := by positivity
  interval_cases j <;>
    simp only [Finset.sum_range_succ, Finset.sum_range_zero, tv, s1, s2, s3, s4,
      s5, s6, s7, s8, zero_div, neg_div, zero_add, add_zero] <;>
    linarith

lemma B_mul8_nonneg (k : ℕ) : 0 ≤ B (8 * k) := by
  induction k with
  | zero => simp [B]
  | succ k ih =>
    rw [show 8 * (k + 1) = 8 * k + 8 by ring, B_add]
    have hp := blockPart_nonneg k (le_refl 8)
    linarith

lemma B_nonneg (n : ℕ) : 0 ≤ B n := by
  obtain ⟨k, j, hj, rfl⟩ : ∃ k j, j ≤ 8 ∧ n = 8 * k + j :=
    ⟨n / 8, n % 8, by omega, by omega⟩
  rw [B_add]
  have h0 := B_mul8_nonneg k
  have hp := blockPart_nonneg k hj
  linarith

lemma aCoef_nonneg (m : ℕ) : 0 ≤ aCoef m := by
  have h := Real.neg_one_le_cos (π * m / 256)
  unfold aCoef
  linarith

lemma aCoef_le_aCoef {m n : ℕ} (hmn : m ≤ n) (hn : n ≤ 256) : aCoef n ≤ aCoef m := by
  unfold aCoef
  have hx : (0 : ℝ) ≤ π * m / 256 := by positivity
  have hy : π * n / 256 ≤ π := by
    rw [div_le_iff₀ (by norm_num : (0 : ℝ) < 256)]
    have hn' : (n : ℝ) ≤ 256 := by exact_mod_cast hn
    nlinarith [Real.pi_pos]
  have hxy : π * m / 256 ≤ π * n / 256 := by
    have hmn' : (m : ℝ) ≤ n := by exact_mod_cast hmn
    have := Real.pi_pos
    gcongr
  have := Real.cos_le_cos_of_nonneg_of_le_pi hx hy hxy
  linarith

lemma T_ge_tail : ∀ n, n ≤ 256 → aCoef n * B n ≤ T n := by
  intro n
  induction n with
  | zero => intro _; simp [T, B]
  | succ n ih =>
    intro hn1
    have ihn := ih (by omega)
    have hTs : T (n + 1) = T n + aCoef (n + 1) * dTerm (n + 1) :=
      Finset.sum_range_succ _ n
    have hmono : aCoef (n + 1) ≤ aCoef n := aCoef_le_aCoef (Nat.le_succ n) hn1
    have hswap : aCoef (n + 1) * B n ≤ aCoef n * B n :=
      mul_le_mul_of_nonneg_right hmono (B_nonneg n)
    rw [hTs, B_succ]
    nlinarith [ihn, hswap]

lemma T256_nonneg : 0 ≤ T 256 := by
  have h := T_ge_tail 256 le_rfl
  have h2 : 0 ≤ aCoef 256 * B 256 := mul_nonneg (aCoef_nonneg _) (B_nonneg _)
  linarith

lemma Wn_low_eq : Wn_low = 1 / 4 := by
  norm_num [Wn_low, fc_low, fs]

lemma lhRaw_eq (n : ℕ) :
    lhRaw n = 1 / 4 * sinc (((n : ℝ) - 256) / 4) *
      (0.54 - 0.46 * Real.cos (2 * π * n / 512)) := by
  rw [lhRaw, firwinRaw]
  simp only [idealResp, winVal, List.getD_cons_zero]
  rw [centerOffset_513, Wn_low_eq,
    show ((513 : ℕ) : ℝ) - 1 = 512 by norm_num,
    show (1 : ℝ) / 4 * ((n : ℝ) - 256) = ((n : ℝ) - 256) / 4 by ring]

lemma lhRaw_256 : lhRaw 256 = 1 / 4 := by
  rw [lhRaw_eq,
    show (((256 : ℕ) : ℝ) - 256) / 4 = 0 by norm_num,
    show 2 * π * ((256 : ℕ) : ℝ) / 512 = π by push_cast; ring,
    Real.cos_pi, sinc, if_pos rfl]
  norm_num

lemma lhRaw_256_add {m : ℕ} (hm1 : 1 ≤ m) :
    lhRaw (256 + m) = 1 / 4 * (4 / (π * m) * sigma8 m) * aCoef m := by
  rw [lhRaw_eq]
  have hc : ((256 + m : ℕ) : ℝ) = 256 + m := by push_cast; ring
  rw [hc, show (256 + (m : ℝ) - 256) / 4 = (m : ℝ) / 4 by ring,
    show 2 * π * (256 + (m : ℝ)) / 512 = π + π * m / 256 by ring,
    cos_pi_add, sinc_nat_quarter hm1, aCoef]
  ring

lemma lhRaw_256_sub {m : ℕ} (hm1 : 1 ≤ m) (hm : m ≤ 256) :
    lhRaw (256 - m) = 1 / 4 * (4 / (π * m) * sigma8 m) * aCoef m := by
  rw [lhRaw_eq]
  have hc : ((256 - m : ℕ) : ℝ) = 256 - m := by push_cast [hm]; ring
  rw [hc, show (256 - (m : ℝ) - 256) / 4 = -((m : ℝ) / 4) by ring, sinc_neg,
    show 2 * π * (256 - (m : ℝ)) / 512 = π - π * m / 256 by ring,
    Real.cos_pi_sub, sinc_nat_quarter hm1, aCoef]
  ring

lemma lhRaw_pair {i : ℕ} (hi : i < 256) :
    lhRaw (257 + i) + lhRaw (255 - i) = 2 / π * (aCoef (i + 1) * dTerm (i + 1)) := by
  rw [show 257 + i = 256 + (i + 1) by omega, show 255 - i = 256 - (i + 1) by omega,
    lhRaw_256_add (by omega), lhRaw_256_sub (by omega) (by omega), dTerm]
  have hπ : π ≠ 0 := Real.pi_ne_zero
  have hm : ((i : ℝ) + 1) ≠ 0 := by positivity
  push_cast
  field_simp
  ring

lemma lhScale_eq_sum : lhScale = ∑ n ∈ Finset.range 513, lhRaw n := by
  rw [lhScale, scaleSum]
  refine Finset.sum_congr rfl fun n _ => ?_
  simp only [scaleRef, mul_zero, Real.cos_zero, mul_one, lhRaw]

lemma lhScale_decomp : lhScale = 1 / 4 + 2 / π * T 256 := by
  have hrefl : ∑ n ∈ Finset.range 256, lhRaw n =
      ∑ i ∈ Finset.range 256, lhRaw (255 - i) := by
    rw [← Finset.sum_range_reflect lhRaw 256]
  have hsplit : lhScale =
      lhRaw 256 + ∑ i ∈ Finset.range 256, (lhRaw (257 + i) + lhRaw (255 - i)) := by
    rw [lhScale_eq_sum, show (513 : ℕ) = 257 + 256 by norm_num,
      Finset.sum_range_add, Finset.sum_range_succ, hrefl, Finset.sum_add_distrib]
    ring
  rw [hsplit, lhRaw_256]
  have hpairs : ∑ i ∈ Finset.range 256, (lhRaw (257 + i) + lhRaw (255 - i)) =
      2 / π * T 256 := by
    rw [T, Finset.mul_sum]
    exact Finset.sum_congr rfl fun i hi => lhRaw_pair (Finset.mem_range.mp hi)
  rw [hpairs]

lemma lhScale_ge : 1 / 4 ≤ lhScale := by
  rw [lhScale_decomp]
  have h1 : 0 ≤ 2 / π * T 256 := mul_nonneg (by positivity) T256_nonneg
  linarith

lemma lhScale_ne : lhScale ≠ 0 := by
  have h := lhScale_ge
  intro h0
  rw [h0] at h
  norm_num at h

lemma lowHamming_getD {k : ℕ} (hk : k < 513) :
    lowHamming.getD k 0 = lhRaw k / lhScale := by
  have h513 : N + 1 = 513 := by norm_num [N]
  simp only [lowHamming, h513]
  rw [firwinCoeffs_getD hk]
  rfl

lemma sum_lowHamming : ∑ k ∈ Finset.range 513, lowHamming.getD k 0 = 1 := by
  have hterms : ∀ k ∈ Finset.range 513, lowHamming.getD k 0 = lhRaw k / lhScale :=
    fun k hk => lowHamming_getD (Finset.mem_range.mp hk)
  rw [Finset.sum_congr rfl hterms, ← Finset.sum_div, ← lhScale_eq_sum,
    div_self lhScale_ne]

lemma replicate_getD {j : ℕ} (hj : j < 1000) :
    (List.replicate 1000 (1 : ℝ)).getD j 0 = 1 := by
  have hlen : j < (List.replicate 1000 (1 : ℝ)).length := by
    rw [List.length_replicate]
    exact hj
  rw [List.getD_eq_getElem _ _ hlen, List.getElem_replicate]

/-! ### Claim theorems -/

/-- C2: the design operation returns a mapping with exactly the six keys
`Low_Hamming, Band_Hamming, High_Hamming, Low_Blackman, Band_Blackman,
High_Blackman`, in that order, and every value is a real coefficient
sequence of length exactly `513 = order + 1`. -/
theorem design_bank_shape :
    design_filters = .ok designBank ∧
    designBank.map Prod.fst =
      ["Low_Hamming", "Band_Hamming", "High_Hamming",
       "Low_Blackman", "Band_Blackman", "High_Blackman"] ∧
    designBank.map (fun p => p.2.length) = [513, 513, 513, 513, 513, 513] := by
  refine ⟨design_filters_ok, by simp [designBank], ?_⟩
  simp [designBank, lowHamming, bandHamming, highHamming, lowBlackman,
    bandBlackman, highBlackman, firwinCoeffs_length, N]

/-- C5: with sample rate 8000 Hz, order 512, lowpass cutoff 1000 Hz
and a Hamming window, filtering a 1000-sample all-ones (DC) input
yields output within `±1e-3` of `1.0` at every index from 600 on: in
the real-valued model the gain normalization makes the taps sum to `1`
exactly, so the settled output equals `1` once the 513-tap history is
full. -/
theorem lowpass_dc_unity_gain (i : ℕ) (h6 : 600 ≤ i) (h1000 : i < 1000) :
    ("Low_Hamming", lowHamming) ∈ designBank ∧
    |(lfilter lowHamming (List.replicate 1000 1)).getD i 0 - 1| ≤ 1 / 1000 := by
  constructor
  · rw [designBank]
    exact List.mem_cons_self _ _
  have hi : i < (List.replicate 1000 (1 : ℝ)).length := by
    rw [List.length_replicate]
    exact h1000
  rw [lfilter_getD _ _ hi]
  have hL : lowHamming.length = 513 := by
    have h513 : N + 1 = 513 := by norm_num [N]
    simp only [lowHamming, h513, firwinCoeffs_length]
  rw [hL, show min (i + 1) 513 = 513 by omega]
  have hterm : ∀ k ∈ Finset.range 513,
      lowHamming.getD k 0 * (List.replicate 1000 (1 : ℝ)).getD (i - k) 0 =
        lowHamming.getD k 0 := by
    intro k _
    rw [replicate_getD (by omega), mul_one]
  rw [Finset.sum_congr rfl hterm, sum_lowHamming]
  norm_num

set_option maxRecDepth 8192 in
/-- C5 witness: the unity-gain bound at the concrete sample index 600. -/
theorem lowpass_dc_unity_gain_witness :
    ("Low_Hamming", lowHamming) ∈ designBank ∧
    |(lfilter lowHamming (List.replicate 1000 1)).getD 600 0 - 1| ≤ 1 / 1000 :=
  lowpass_dc_unity_gain 600 (by norm_num) (by norm_num)

/-- C6: filtering is deterministic and side-effect free — running
`apply_filters` twice on the same input yields identical results, and
neither run changes the global state. -/
theorem apply_filters_deterministic (x : List ℝ) (env : GlobalEnv) :
    (apply_filtersRun x env).1 =
      (apply_filtersRun x (apply_filtersRun x env).2).1 ∧
    (apply_filtersRun x (apply_filtersRun x env).2).2 = env :=
  ⟨rfl, rfl⟩

/-- C7 counterexample: on the zero-length input, `apply_filters`
returns normally (an `ok` result) — no `EmptySignal` failure exists in
the code, so a filtered result is produced for the empty input. -/
theorem apply_filters_empty_no_error :
    (apply_filters ([] : List ℝ)).isOk = true := by
  rw [apply_filters_eq]
  rfl

/-- C7 (amended): applying the filters to a zero-length input does not
fail; it returns the mapping with the six filter keys, each mapped to
the zero-length output signal. -/
theorem apply_filters_empty_result :
    apply_filters ([] : List ℝ) =
      .ok [("Low_Hamming", []), ("Band_Hamming", []), ("High_Hamming", []),
           ("Low_Blackman", []), ("Band_Blackman", []), ("High_Blackman", [])] := by
  rw [apply_filters_eq]
  simp [applyBank, designBank, lfilter_nil]

/-- C10: for a zero-length input `apply_filters` returns normally with
a mapping that still has exactly the six filter keys, each mapped to a
zero-length output signal. -/
theorem apply_filters_empty_keys_values :
    (apply_filters ([] : List ℝ)).map (fun bank => bank.map Prod.fst) =
      .ok ["Low_Hamming", "Band_Hamming", "High_Hamming",
           "Low_Blackman", "Band_Blackman", "High_Blackman"] ∧
    (apply_filters ([] : List ℝ)).map (fun bank => bank.map Prod.snd) =
      .ok [[], [], [], [], [], []] := by
  rw [apply_filters_eq]
  constructor <;> simp [applyBank, designBank, lfilter_nil, Except.map]

/-- C1: for every filter of the bank and every non-empty input `x`,
`apply_filters` pairs the filter's name with `lfilter` of its taps, and
the output sample at each index `i` is the causal convolution sum
`y[i] = Σ_{k=0..min(i, M-1)} h[k]·x[i-k]` with zero-padding of `x` to
the left. -/
theorem apply_filters_convolution (x : List ℝ) (hx : x ≠ [])
    (p : String × List ℝ) (hp : p ∈ designBank) (i : ℕ) (hi : i < x.length) :
    apply_filters x = .ok (applyBank x) ∧
    (p.1, lfilter p.2 x) ∈ applyBank x ∧
    (lfilter p.2 x).getD i 0 =
      ∑ k ∈ Finset.range (min i (p.2.length - 1) + 1),
        p.2.getD k 0 * x.getD (i - k) 0 := by
  refine ⟨apply_filters_eq x, List.mem_map_of_mem _ hp, ?_⟩
  rw [lfilter_getD _ _ hi]
  have hM : p.2.length = 513 := designBank_snd_length hp
  have hmin : min (i + 1) p.2.length = min i (p.2.length - 1) + 1 := by omega
  rw [hmin]

set_option maxRecDepth 8192 in
/-- C1 witness: the convolution identity instantiated at the
`Low_Hamming` filter, the one-sample signal `[1]` and index `0`. -/
theorem apply_filters_convolution_witness :
    apply_filters [1] = .ok (applyBank [1]) ∧
    ("Low_Hamming", lfilter lowHamming [1]) ∈ applyBank [1] ∧
    (lfilter lowHamming [1]).getD 0 0 =
      ∑ k ∈ Finset.range (min 0 (lowHamming.length - 1) + 1),
        lowHamming.getD k 0 * [(1 : ℝ)].getD (0 - k) 0 :=
  apply_filters_convolution [1] (by simp) ("Low_Hamming", lowHamming)
    (by rw [designBank]; exact List.mem_cons_self _ _) 0 (by simp)

/-- C3: every coefficient sequence of the designed bank is symmetric —
for each of the six filters, with taps of length `M = 513`, `tap[i] =
tap[M-1-i]` for every `i < M` (linear-phase property). -/
theorem design_coefficients_symmetric (p : String × List ℝ)
    (hp : p ∈ designBank) (i : ℕ) (hi : i < 513) :
    p.2.getD i 0 = p.2.getD (512 - i) 0 := by
  have hi' : i ≤ 512 := by omega
  have h513 : N + 1 = 513 := by norm_num [N]
  have key : ∀ bt cutoff w,
      (firwinCoeffs 513 bt cutoff w).getD i 0 =
        (firwinCoeffs 513 bt cutoff w).getD (512 - i) 0 := by
    intro bt cutoff w
    rw [firwinCoeffs_getD hi, firwinCoeffs_getD (by omega : 512 - i < 513),
      firwinRaw_513_reflect _ _ _ hi']
  simp only [designBank, List.mem_cons, List.not_mem_nil, or_false] at hp
  rcases hp with rfl | rfl | rfl | rfl | rfl | rfl
  · simp only [lowHamming, h513]
    exact key _ _ _
  · simp only [bandHamming, h513]
    exact key _ _ _
  · simp only [highHamming, h513]
    exact key _ _ _
  · simp only [lowBlackman, h513]
    exact key _ _ _
  · simp only [bandBlackman, h513]
    exact key _ _ _
  · simp only [highBlackman, h513]
    exact key _ _ _

set_option maxRecDepth 8192 in
/-- C3 witness: symmetry of the `Low_Hamming` taps at the outermost
index pair `(0, 512)`. -/
theorem design_coefficients_symmetric_witness :
    ("Low_Hamming", lowHamming) ∈ designBank ∧
    lowHamming.getD 0 0 = lowHamming.getD 512 0 :=
  ⟨by rw [designBank]; exact List.mem_cons_self _ _,
   design_coefficients_symmetric ("Low_Hamming", lowHamming)
     (by rw [designBank]; exact List.mem_cons_self _ _) 0 (by norm_num)⟩

/-- C4: for every non-empty input signal, each of the six filtered
output signals has exactly as many samples as the input. -/
theorem apply_filters_preserves_length (x : List ℝ) (hx : x ≠ []) :
    apply_filters x = .ok (applyBank x) ∧
    (applyBank x).map (fun p => p.2.length) = List.replicate 6 x.length := by
  refine ⟨apply_filters_eq x, ?_⟩
  simp [applyBank, designBank, lfilter_length, List.replicate]

/-- C4 witness: length preservation at the one-sample signal `[1]`. -/
theorem apply_filters_preserves_length_witness :
    apply_filters [1] = .ok (applyBank [1]) ∧
    (applyBank [(1 : ℝ)]).map (fun p => p.2.length) =
      List.replicate 6 [(1 : ℝ)].length :=
  apply_filters_preserves_length [1] (by simp)

/-- C8: the design fails with `InvalidSpec`, returning no partial
filter bank, whenever any cutoff is `≤ 0` or `≥` the Nyquist frequency
`fs / 2`, or the two bandpass cutoffs are not strictly increasing. -/
theorem design_rejects_invalid_cutoffs (fcl fcb1 fcb2 fch : ℝ)
    (hbad : (fcl ≤ 0 ∨ fs / 2 ≤ fcl) ∨ (fcb1 ≤ 0 ∨ fs / 2 ≤ fcb1) ∨
      (fcb2 ≤ 0 ∨ fs / 2 ≤ fcb2) ∨ (fch ≤ 0 ∨ fs / 2 ≤ fch) ∨ fcb2 ≤ fcb1) :
    designFiltersGen fcl (fcb1, fcb2) fch = .error .invalidSpec := by
  have hfs : fs / 2 = 4000 := by norm_num [fs]
  rw [hfs] at hbad
  by_cases hl : validCutoffs [fcl / (fs / 2)]
  · by_cases hb : validCutoffs [fcb1 / (fs / 2), fcb2 / (fs / 2)]
    · by_cases hh : validCutoffs [fch / (fs / 2)]
      · exfalso
        rw [hfs] at hl hb hh
        rw [valid_single_iff] at hl hh
        obtain ⟨⟨hb1, hb1'⟩, ⟨hb2, hb2'⟩, hb12⟩ := valid_pair_first hb
        have h4 : (0 : ℝ) < 4000 := by norm_num
        have l1 : 0 < fcl := by nlinarith [hl.1]
        have l2 : fcl < 4000 := (div_lt_one h4).mp hl.2
        have b1 : 0 < fcb1 := by nlinarith [hb1]
        have b1' : fcb1 < 4000 := (div_lt_one h4).mp hb1'
        have b2 : 0 < fcb2 := by nlinarith [hb2]
        have b2' : fcb2 < 4000 := (div_lt_one h4).mp hb2'
        have b12 : fcb1 < fcb2 := (div_lt_div_iff_of_pos_right h4).mp hb12
        have g1 : 0 < fch := by nlinarith [hh.1]
        have g2 : fch < 4000 := (div_lt_one h4).mp hh.2
        rcases hbad with (h | h) | (h | h) | (h | h) | (h | h) | h <;> linarith
      · simp only [designFiltersGen, firwin_ok hl, firwin_ok hb, firwin_err hh]
        rfl
    · simp only [designFiltersGen, firwin_ok hl, firwin_err hb]
      rfl
  · simp only [designFiltersGen, firwin_err hl]
    rfl

/-- C8 witness: reversed bandpass cutoffs `[2000, 1000]` make the
design fail with `InvalidSpec`. -/
theorem design_rejects_invalid_cutoffs_witness :
    designFiltersGen 1000 (2000, 1000) 2000 = .error .invalidSpec :=
  design_rejects_invalid_cutoffs 1000 2000 1000 2000
    (by norm_num)

/-- C9: with a signal loaded, the playback lookup signals the
unknown-filter error (the `"Invalid selection."` status, playing
nothing) exactly when the selected name is neither `"Original Signal"`
nor a key of the current filtered result. -/
theorem play_selected_unknown (env : GlobalEnv) (x : List ℝ)
    (y : List (String × List ℝ)) (t : List ℝ)
    (henv : env.loaded = some (x, y, t)) (sel : String)
    (hsel : sel ∉ "Original Signal" :: y.map Prod.fst) :
    play_selected env sel = .statusMsg "Invalid selection." := by
  simp only [List.mem_cons, not_or] at hsel
  simp only [play_selected, henv]
  rw [if_neg hsel.1, lookup_eq_none_of_not_mem hsel.2]

/-- C9 witness: a concrete lookup of a name outside the valid set. -/
theorem play_selected_unknown_witness :
    play_selected ⟨some ([0], [], [0])⟩ "Foo" = .statusMsg "Invalid selection." :=
  play_selected_unknown ⟨some ([0], [], [0])⟩ [0] [] [0] rfl "Foo" (by simp)

end DSP
